import Mathlib

/-!
Shallow embedding of the bit-vector layer of `bitm` (`src/bitm/src/bitvec.rs`).

A `[u64]` slice is modelled as a `List Nat` whose elements are below `2 ^ 64`
(predicate `Wf`).  Rust `u64` operations become `Nat` operations, with an
explicit `% 2 ^ 64` exactly where Rust wraps (left shifts) and a 64-bit
complement `not64` for `!`.  Reads out of range are irrelevant for the claims,
which all carry the in-bounds preconditions of the source; `wget` models a read
(`List.getD` with default `0`).
-/

namespace Bitm

/-- Modelled from the spec: the crate-root helper `n_lowest_bits` (`mask_of` in
the spec, §4.1) is not under `src/`; the spec says it returns the value with
exactly the `len` lowest bits set for `0 ≤ len ≤ 64`, special-casing
`len = 64` to avoid a full-width shift. -/
def n_lowest_bits (len : Nat) : Nat :=
  if len = 64 then 2 ^ 64 - 1 else 2 ^ len - 1

/-- Modelled from the spec: the crate-root helper `ceiling_div` (§4.1),
the smallest `q` with `q * d ≥ n`. -/
def ceiling_div (n d : Nat) : Nat := (n + d - 1) / d

/-- Reading `self[i]` from a `u64` slice. -/
def wget (arr : List Nat) (i : Nat) : Nat := arr.getD i 0

/-- Rust `!x` on `u64`: complement within 64 bits. -/
def not64 (x : Nat) : Nat := x ^^^ (2 ^ 64 - 1)

/-- The slice is a faithful image of a `[u64]`: every word fits in 64 bits. -/
def Wf (arr : List Nat) : Prop := ∀ w ∈ arr, w < 2 ^ 64

instance (arr : List Nat) : Decidable (Wf arr) := List.decidableBAll _ arr

/-- The bit of global index `b`: bit `b % 64` of word `b / 64`. -/
def bit_of (arr : List Nat) (b : Nat) : Bool :=
  (wget arr (b / 64)).testBit (b % 64)

/-- `<[u64] as BitAccess>::get_bit` (bitvec.rs:225). -/
def get_bit (arr : List Nat) (bit_nr : Nat) : Bool :=
  (wget arr (bit_nr / 64)) &&& (1 <<< (bit_nr % 64)) != 0

/-- `<[u64] as BitAccess>::set_bit` (bitvec.rs:229). -/
def set_bit (arr : List Nat) (bit_nr : Nat) : List Nat :=
  arr.set (bit_nr / 64) (wget arr (bit_nr / 64) ||| (1 <<< (bit_nr % 64)))

/-- `<[u64] as BitAccess>::clear_bit` (bitvec.rs:233). -/
def clear_bit (arr : List Nat) (bit_nr : Nat) : List Nat :=
  arr.set (bit_nr / 64) (wget arr (bit_nr / 64) &&& not64 (1 <<< (bit_nr % 64)))

/-- `<[u64] as BitAccess>::get_bits` (bitvec.rs:249-263). -/
def get_bits (arr : List Nat) (b : Nat) (len : Nat) : Nat :=
  let index_segment := b / 64
  let offset := b % 64
  let w1 := wget arr index_segment >>> offset
  let v_mask := n_lowest_bits len
  if offset + len > 64 then
    let shift := 64 - offset
    w1 ||| ((wget arr (index_segment + 1) &&& (v_mask >>> shift)) <<< shift)
  else
    w1 &&& v_mask

/-- `<[u64] as BitAccess>::set_bits` (bitvec.rs:265-276).  The second word is
written first, as in the source; left shifts wrap modulo `2 ^ 64`. -/
def set_bits (arr : List Nat) (b v : Nat) (len : Nat) : List Nat :=
  let index_segment := b / 64
  let offset := b % 64
  let v_mask := n_lowest_bits len
  let arr2 :=
    if offset + len > 64 then
      let shift := 64 - offset
      arr.set (index_segment + 1)
        ((wget arr (index_segment + 1) &&& not64 (v_mask >>> shift)) ||| (v >>> shift))
    else arr
  arr2.set index_segment
    ((wget arr2 index_segment &&& not64 ((v_mask <<< offset) % 2 ^ 64)) |||
      ((v <<< offset) % 2 ^ 64))

/-- `<[u64] as BitAccess>::xor_bits` (bitvec.rs:278-286). -/
def xor_bits (arr : List Nat) (b v : Nat) (len : Nat) : List Nat :=
  let index_segment := b / 64
  let offset := b % 64
  let arr2 :=
    if offset + len > 64 then
      arr.set (index_segment + 1)
        (wget arr (index_segment + 1) ^^^ (v >>> (64 - offset)))
    else arr
  arr2.set index_segment (wget arr2 index_segment ^^^ ((v <<< offset) % 2 ^ 64))

/-- `<[u64] as BitAccess>::init_fragment` (bitvec.rs:288-297): ORs the value in
without clearing first. -/
def init_fragment (arr : List Nat) (index v : Nat) (v_size : Nat) : List Nat :=
  let index_bit := index * v_size
  let index_segment := index_bit / 64
  let offset := index_bit % 64
  let arr2 :=
    if offset + v_size > 64 then
      arr.set (index_segment + 1)
        (wget arr (index_segment + 1) ||| (v >>> (64 - offset)))
    else arr
  arr2.set index_segment (wget arr2 index_segment ||| ((v <<< offset) % 2 ^ 64))

/-- `BitAccess::get_fragment` (bitvec.rs:82). -/
def get_fragment (arr : List Nat) (index : Nat) (v_size : Nat) : Nat :=
  get_bits arr (index * v_size) v_size

/-- `BitAccess::set_fragment` (bitvec.rs:93). -/
def set_fragment (arr : List Nat) (index v : Nat) (v_size : Nat) : List Nat :=
  set_bits arr (index * v_size) v v_size

/-- `u64::count_ones` of a word: the number of set bits among its 64 bits. -/
def count_ones64 (w : Nat) : Nat :=
  ((Finset.range 64).filter (fun i => w.testBit i = true)).card

/-- `u64::count_zeros` of a word: the number of cleared bits among its 64 bits. -/
def count_zeros64 (w : Nat) : Nat :=
  ((Finset.range 64).filter (fun i => w.testBit i = false)).card

/-- `<[u64] as BitAccess>::count_bit_ones` (bitvec.rs:241). -/
def count_bit_ones (arr : List Nat) : Nat := (arr.map count_ones64).sum

/-- `<[u64] as BitAccess>::count_bit_zeros` (bitvec.rs:237). -/
def count_bit_zeros (arr : List Nat) : Nat := (arr.map count_zeros64).sum

/-- `<[u64] as BitAccess>::conditionally_change_bits` (bitvec.rs:299-324), the
specialized slice implementation.  Returns the pair (returned old value,
resulting array). -/
def conditionally_change_bits (arr : List Nat) (new_value : Nat → Option Nat)
    (b : Nat) (v_size : Nat) : Nat × List Nat :=
  let index_segment := b / 64
  let offset := b % 64
  let w1 := wget arr index_segment >>> offset
  let end_bit := offset + v_size
  let v_mask := n_lowest_bits v_size
  let r :=
    if end_bit > 64 then
      let shift := 64 - offset
      w1 ||| ((wget arr (index_segment + 1) &&& (v_mask >>> shift)) <<< shift)
    else
      w1 &&& v_mask
  match new_value r with
  | some v =>
    let arr2 :=
      if end_bit > 64 then
        let shift := 64 - offset
        arr.set (index_segment + 1)
          ((wget arr (index_segment + 1) &&& not64 (v_mask >>> shift)) ||| (v >>> shift))
      else arr
    (r, arr2.set index_segment
      ((wget arr2 index_segment &&& not64 ((v_mask <<< offset) % 2 ^ 64)) |||
        ((v <<< offset) % 2 ^ 64)))
  | none => (r, arr)

/-- `<[u64] as BitAccess>::conditionally_copy_bits` (bitvec.rs:326-353), the
specialized slice implementation. -/
def conditionally_copy_bits (dst src : List Nat) (pred : Nat → Nat → Bool)
    (b : Nat) (v_size : Nat) : List Nat :=
  let index_segment := b / 64
  let offset := b % 64
  let self_w1 := wget dst index_segment >>> offset
  let src_w1 := wget src index_segment >>> offset
  let end_bit := offset + v_size
  let v_mask := n_lowest_bits v_size
  if end_bit > 64 then
    let shift := 64 - offset
    let w2_mask := v_mask >>> shift
    let self_bits := self_w1 ||| ((wget dst (index_segment + 1) &&& w2_mask) <<< shift)
    let src_w2 := wget src (index_segment + 1) &&& w2_mask
    if pred self_bits (src_w1 ||| (src_w2 <<< shift)) then
      let dst2 := dst.set (index_segment + 1)
        ((wget dst (index_segment + 1) &&& not64 w2_mask) ||| src_w2)
      dst2.set index_segment
        ((wget dst2 index_segment &&& not64 ((v_mask <<< offset) % 2 ^ 64)) |||
          ((src_w1 <<< offset) % 2 ^ 64))
    else dst
  else
    let src_w1m := src_w1 &&& v_mask
    if pred (self_w1 &&& v_mask) src_w1m then
      dst.set index_segment
        ((wget dst index_segment &&& not64 ((v_mask <<< offset) % 2 ^ 64)) |||
          ((src_w1m <<< offset) % 2 ^ 64))
    else dst

/-- `BitAccess::conditionally_change_bits` default trait implementation
(bitvec.rs:114-120), composed from `get_bits` and `set_bits`. -/
def default_conditionally_change_bits (arr : List Nat) (new_value : Nat → Option Nat)
    (b : Nat) (v_size : Nat) : Nat × List Nat :=
  let old := get_bits arr b v_size
  match new_value old with
  | some new => (old, set_bits arr b new v_size)
  | none => (old, arr)

/-- `BitAccess::conditionally_copy_bits` default trait implementation
(bitvec.rs:136-141), composed from `get_bits` and the default
`conditionally_change_bits`. -/
def default_conditionally_copy_bits (dst src : List Nat) (pred : Nat → Nat → Bool)
    (b : Nat) (v_size : Nat) : List Nat :=
  let src_bits := get_bits src b v_size
  (default_conditionally_change_bits dst
    (fun self_bits => if pred self_bits src_bits then some src_bits else none) b v_size).2

/-- `BitVec::with_64bit_segments` for `Box<[u64]>` (bitvec.rs:187). -/
def with_64bit_segments (segments_value : Nat) (segments_len : Nat) : List Nat :=
  List.replicate segments_len segments_value

/-- `BitVec::with_filled_64bit_segments` (bitvec.rs:169): all bits one. -/
def with_filled_64bit_segments (segments_len : Nat) : List Nat :=
  with_64bit_segments (2 ^ 64 - 1) segments_len

/-- `BitVec::with_zeroed_64bit_segments` (bitvec.rs:164): all bits zero. -/
def with_zeroed_64bit_segments (segments_len : Nat) : List Nat :=
  with_64bit_segments 0 segments_len

/-- `u64::trailing_zeros`: the position of the lowest set bit (64 for zero). -/
def trailing_zeros (n : Nat) : Nat :=
  if n = 0 then 64
  else if n % 2 = 1 then 0
  else trailing_zeros (n / 2) + 1
decreasing_by exact Nat.div_lt_self (by omega) (by omega)

/-- `BitOnesIterator` (bitvec.rs:4-9): the remaining words, the bit offset of
the word being scanned, and the working copy of that word. -/
structure BitOnesIterator where
  segment_iter : List Nat
  first_segment_bit : Nat
  current_segment : Nat
deriving DecidableEq, Repr

/-- `BitOnesIterator::new` (bitvec.rs:13-21): pulls the first word (0 if none). -/
def BitOnesIterator.new (slice : List Nat) : BitOnesIterator :=
  match slice with
  | [] => ⟨[], 0, 0⟩
  | w :: rest => ⟨rest, 0, w⟩

/-- The loop of `BitOnesIterator::next` (bitvec.rs:27-35), structurally
recursive on the remaining words: while the working word is zero pull the next
word (adding 64 to the offset), then clear and yield the lowest set bit. -/
def next_aux : Nat → Nat → List Nat → Option (Nat × BitOnesIterator)
  | first_segment_bit, current_segment, rest =>
    if current_segment = 0 then
      match rest with
      | [] => none
      | w :: rest2 => next_aux (first_segment_bit + 64) w rest2
    else
      let result := trailing_zeros current_segment
      some (first_segment_bit + result,
        ⟨rest, first_segment_bit, current_segment ^^^ (1 <<< result)⟩)

/-- `BitOnesIterator::next` (bitvec.rs:27-35). -/
def BitOnesIterator.next (it : BitOnesIterator) : Option (Nat × BitOnesIterator) :=
  next_aux it.first_segment_bit it.current_segment it.segment_iter

/-- `BitOnesIterator::len` (bitvec.rs:43-47): popcount of the working word plus
`count_bit_ones` of the not-yet-visited words. -/
def BitOnesIterator.len (it : BitOnesIterator) : Nat :=
  count_ones64 it.current_segment + count_bit_ones it.segment_iter

/-! ### Basic word-level lemmas -/

theorem n_lowest_bits_eq {len : Nat} (_ : len ≤ 64) : n_lowest_bits len = 2 ^ len - 1 := by
  unfold n_lowest_bits
  by_cases h64 : len = 64 <;> simp [h64]

theorem testBit_n_lowest_bits {len : Nat} (h : len ≤ 64) (j : Nat) :
    (n_lowest_bits len).testBit j = decide (j < len) := by
  rw [n_lowest_bits_eq h, Nat.testBit_two_pow_sub_one]

theorem testBit_high_false {x n j : Nat} (hx : x < 2 ^ n) (hj : n ≤ j) :
    x.testBit j = false :=
  Nat.testBit_lt_two_pow
    (lt_of_lt_of_le hx (Nat.pow_le_pow_right (by omega) hj))

theorem n_lowest_bits_lt {len : Nat} (h : len ≤ 64) : n_lowest_bits len < 2 ^ 64 := by
  rw [n_lowest_bits_eq h]
  have h1 : (0:Nat) < 2 ^ 64 := by positivity
  have h2 : 2 ^ len ≤ 2 ^ 64 := Nat.pow_le_pow_right (by omega) h
  omega

theorem not64_lt (x : Nat) : not64 x < 2 ^ 64 ∨ 2 ^ 64 ≤ x := by
  by_cases hx : x < 2 ^ 64
  · exact Or.inl (Nat.bitwise_lt hx (by omega))
  · exact Or.inr (by omega)

theorem testBit_not64 {x : Nat} (hx : x < 2 ^ 64) (j : Nat) :
    (not64 x).testBit j = (decide (j < 64) && !x.testBit j) := by
  unfold not64
  rw [Nat.testBit_xor, Nat.testBit_two_pow_sub_one]
  by_cases hj : j < 64
  · simp [hj]
  · have hx2 : x.testBit j = false := testBit_high_false hx (by omega)
    simp [hj, hx2]

theorem wf_wget {arr : List Nat} (h : Wf arr) (i : Nat) : wget arr i < 2 ^ 64 := by
  unfold wget
  by_cases hi : i < arr.length
  · have : arr.getD i 0 ∈ arr := by
      rw [List.getD_eq_getElem _ _ hi]
      exact List.getElem_mem hi
    exact h _ this
  · rw [List.getD_eq_default _ _ (by omega)]
    positivity

theorem wget_set_self {arr : List Nat} {i : Nat} (h : i < arr.length) (v : Nat) :
    wget (arr.set i v) i = v := by
  simp [wget, List.getD, List.getElem?_set_self, h]

theorem wget_set_ne {arr : List Nat} {i j : Nat} (h : i ≠ j) (v : Nat) :
    wget (arr.set i v) j = wget arr j := by
  simp [wget, List.getD, List.getElem?_set_ne h]

theorem wget_set_oob {arr : List Nat} {i : Nat} (h : arr.length ≤ i) (v : Nat) :
    arr.set i v = arr :=
  List.set_eq_of_length_le h

theorem wf_set {arr : List Nat} (h : Wf arr) {v : Nat} (hv : v < 2 ^ 64) (i : Nat) :
    Wf (arr.set i v) := by
  intro w hw
  rcases List.mem_or_eq_of_mem_set hw with h1 | h1
  · exact h _ h1
  · omega

theorem wf_of_forall_index {arr : List Nat} (h : ∀ i, wget arr i < 2 ^ 64) : Wf arr := by
  intro w hw
  obtain ⟨i, hi, rfl⟩ := List.mem_iff_getElem.mp hw
  have := h i
  rwa [wget, List.getD_eq_getElem _ _ hi] at this

theorem bit_of_set_ne {arr : List Nat} {i t : Nat} (h : t / 64 ≠ i) (v : Nat) :
    bit_of (arr.set i v) t = bit_of arr t := by
  unfold bit_of
  rw [wget_set_ne (fun hh => h hh.symm)]

theorem bit_of_set_self {arr : List Nat} {i t : Nat} (hl : i < arr.length)
    (h : t / 64 = i) (v : Nat) :
    bit_of (arr.set i v) t = v.testBit (t % 64) := by
  unfold bit_of
  rw [h, wget_set_self hl]

/-- Shifted-by-`offset` reads of a 64-bit word have no bits at or above `64 - offset`. -/
theorem shiftRight_lt {x o : Nat} (h : x < 2 ^ 64) (ho : o ≤ 64) :
    x >>> o < 2 ^ (64 - o) := by
  rw [Nat.shiftRight_eq_div_pow]
  apply Nat.div_lt_of_lt_mul
  calc x < 2 ^ 64 := h
  _ = 2 ^ o * 2 ^ (64 - o) := by rw [← pow_add]; congr 1; omega

theorem shiftLeft_shiftRight_cancel (x s : Nat) : x <<< s >>> s = x := by
  simp [Nat.shiftLeft_eq, Nat.shiftRight_eq_div_pow,
    Nat.mul_div_cancel _ (Nat.two_pow_pos s)]

theorem shiftRight_self_le (x n : Nat) : x >>> n ≤ x := by
  rw [Nat.shiftRight_eq_div_pow]
  exact Nat.div_le_self _ _

/-! ### Bit-level characterization of `get_bits` -/

theorem get_bits_testBit {arr : List Nat} (hw : Wf arr) {len : Nat} (hlen : len ≤ 64)
    (b j : Nat) :
    (get_bits arr b len).testBit j = (decide (j < len) && bit_of arr (b + j)) := by
  have hb : 64 * (b / 64) + b % 64 = b := Nat.div_add_mod b 64
  have ho : b % 64 < 64 := Nat.mod_lt _ (by omega)
  rw [get_bits]
  by_cases hc : b % 64 + len > 64
  · -- the range straddles two words
    have hsh : 64 - b % 64 < len := by omega
    simp only [hc, if_true, Nat.testBit_lor, Nat.testBit_shiftLeft, Nat.testBit_land,
      Nat.testBit_shiftRight, testBit_n_lowest_bits hlen]
    by_cases hj1 : j < 64 - b % 64
    · -- bit from the first word
      have h1 : decide (j ≥ 64 - b % 64) = false := by simp; omega
      have h2 : decide (j < len) = true := by simp; omega
      rw [h1, h2]
      unfold bit_of
      rw [show (b + j) / 64 = b / 64 from by omega,
        show (b + j) % 64 = b % 64 + j from by omega]
      simp
    · -- bit from the second word (or above the mask)
      have h1 : decide (j ≥ 64 - b % 64) = true := by simp; omega
      have h2 : (wget arr (b / 64)).testBit (b % 64 + j) = false :=
        testBit_high_false (wf_wget hw _) (by omega)
      rw [h1, h2, show 64 - b % 64 + (j - (64 - b % 64)) = j from by omega]
      by_cases hj2 : j < len
      · have h3 : decide (j < len) = true := by simp [hj2]
        rw [h3]
        unfold bit_of
        rw [show (b + j) / 64 = b / 64 + 1 from by omega,
          show (b + j) % 64 = j - (64 - b % 64) from by omega]
        simp
      · have h3 : decide (j < len) = false := by simp [hj2]
        rw [h3]
        simp
  · -- the range lies within one word
    simp only [hc, if_false, Nat.testBit_land, Nat.testBit_shiftRight,
      testBit_n_lowest_bits hlen]
    by_cases hj2 : j < len
    · have h3 : decide (j < len) = true := by simp [hj2]
      rw [h3]
      unfold bit_of
      rw [show (b + j) / 64 = b / 64 from by omega,
        show (b + j) % 64 = b % 64 + j from by omega]
      simp
    · have h3 : decide (j < len) = false := by simp [hj2]
      rw [h3]
      simp

/-- Any `get_bits` result fits in `len` bits. -/
theorem get_bits_lt {arr : List Nat} (hw : Wf arr) {len : Nat} (hlen : len ≤ 64)
    (b : Nat) : get_bits arr b len < 2 ^ len := by
  have hself : get_bits arr b len % 2 ^ len = get_bits arr b len := by
    apply Nat.eq_of_testBit_eq
    intro j
    rw [Nat.testBit_mod_two_pow, get_bits_testBit hw hlen]
    by_cases hj : j < len <;> simp [hj]
  rw [← hself]
  exact Nat.mod_lt _ (by positivity)

/-- Two arrays agreeing on the bits of a range have equal `get_bits` there. -/
theorem get_bits_congr {a1 a2 : List Nat} (h1 : Wf a1) (h2 : Wf a2) {len : Nat}
    (hlen : len ≤ 64) (b : Nat)
    (hagree : ∀ j, j < len → bit_of a1 (b + j) = bit_of a2 (b + j)) :
    get_bits a1 b len = get_bits a2 b len := by
  apply Nat.eq_of_testBit_eq
  intro j
  rw [get_bits_testBit h1 hlen, get_bits_testBit h2 hlen]
  by_cases hj : j < len
  · simp [hj, hagree j hj]
  · simp [hj]

/-! ### Bit-level characterization of `set_bits` -/

theorem set_bits_oob {arr : List Nat} {b v len : Nat} (h : arr.length ≤ b / 64) :
    set_bits arr b v len = arr := by
  rw [set_bits]
  by_cases hc : b % 64 + len > 64
  · simp only [hc, if_true]
    rw [wget_set_oob (le_trans h (Nat.le_succ _)),
      wget_set_oob h]
  · simp only [hc, if_false]
    rw [wget_set_oob h]

/-- Inside the range, `set_bits` stores the corresponding bit of `v`
(any `v`: the range bits themselves always come out of `v`). -/
theorem set_bits_bit_in {arr : List Nat} {len : Nat} (hlen : len ≤ 64)
    {b : Nat} (hb : b + len ≤ 64 * arr.length) (v : Nat) {j : Nat} (hj : j < len) :
    bit_of (set_bits arr b v len) (b + j) = v.testBit j := by
  have hb64 : 64 * (b / 64) + b % 64 = b := Nat.div_add_mod b 64
  have ho : b % 64 < 64 := Nat.mod_lt _ (by omega)
  have hsL : b / 64 < arr.length := by omega
  have hmlt : (n_lowest_bits len <<< (b % 64)) % 2 ^ 64 < 2 ^ 64 :=
    Nat.mod_lt _ (by positivity)
  rw [set_bits]
  by_cases hc : b % 64 + len > 64
  · have hs1L : b / 64 + 1 < arr.length := by omega
    simp only [hc, if_true]
    by_cases hj1 : j < 64 - b % 64
    · -- the bit lands in the first word
      rw [bit_of_set_self (by simpa using hsL) (by omega),
        wget_set_ne (by omega),
        show (b + j) % 64 = b % 64 + j from by omega]
      simp only [Nat.testBit_lor, Nat.testBit_land, testBit_not64 hmlt,
        Nat.testBit_mod_two_pow, Nat.testBit_shiftLeft, testBit_n_lowest_bits hlen]
      have e1 : b % 64 + j - b % 64 = j := by omega
      rw [e1]
      simp [hj]
      omega
    · -- the bit lands in the second word
      have hms : n_lowest_bits len >>> (64 - b % 64) < 2 ^ 64 := by
        have h1 : n_lowest_bits len >>> (64 - b % 64) ≤ n_lowest_bits len :=
          shiftRight_self_le _ _
        have h2 : n_lowest_bits len < 2 ^ 64 := n_lowest_bits_lt hlen
        omega
      rw [bit_of_set_ne (by omega),
        bit_of_set_self hs1L (by omega),
        show (b + j) % 64 = j - (64 - b % 64) from by omega]
      simp only [Nat.testBit_lor, Nat.testBit_land, testBit_not64 hms,
        Nat.testBit_shiftRight, testBit_n_lowest_bits hlen]
      have e1 : 64 - b % 64 + (j - (64 - b % 64)) = j := by omega
      rw [e1]
      simp [hj]
  · -- the whole range lies in the first word
    simp only [hc, if_false]
    rw [bit_of_set_self hsL (by omega),
      show (b + j) % 64 = b % 64 + j from by omega]
    simp only [Nat.testBit_lor, Nat.testBit_land, testBit_not64 hmlt,
      Nat.testBit_mod_two_pow, Nat.testBit_shiftLeft, testBit_n_lowest_bits hlen]
    have e1 : b % 64 + j - b % 64 = j := by omega
    rw [e1]
    simp [hj]
    omega

/-- Outside the range, `set_bits` with an in-contract value (`v < 2 ^ len`)
changes nothing. -/
theorem set_bits_bit_out {arr : List Nat} {len : Nat} (hlen : len ≤ 64)
    {b : Nat} (hb : b + len ≤ 64 * arr.length) {v : Nat} (hv : v < 2 ^ len)
    {t : Nat} (ht : t < b ∨ b + len ≤ t) :
    bit_of (set_bits arr b v len) t = bit_of arr t := by
  have hb64 : 64 * (b / 64) + b % 64 = b := Nat.div_add_mod b 64
  have ho : b % 64 < 64 := Nat.mod_lt _ (by omega)
  have ht64 : 64 * (t / 64) + t % 64 = t := Nat.div_add_mod t 64
  have htm : t % 64 < 64 := Nat.mod_lt _ (by omega)
  have hmlt : (n_lowest_bits len <<< (b % 64)) % 2 ^ 64 < 2 ^ 64 :=
    Nat.mod_lt _ (by positivity)
  by_cases hsoob : arr.length ≤ b / 64
  · rw [set_bits_oob hsoob]
  · have hsL : b / 64 < arr.length := by omega
    rw [set_bits]
    by_cases hc : b % 64 + len > 64
    · have hs1L : b / 64 + 1 < arr.length := by omega
      simp only [hc, if_true]
      by_cases hts : t / 64 = b / 64
      · -- first touched word; only `t < b` is possible here
        have htlt : t < b := by omega
        rw [bit_of_set_self (by simpa using hsL) hts,
          wget_set_ne (by omega)]
        unfold bit_of
        rw [hts]
        simp only [Nat.testBit_lor, Nat.testBit_land, testBit_not64 hmlt,
          Nat.testBit_mod_two_pow, Nat.testBit_shiftLeft, testBit_n_lowest_bits hlen]
        have e1 : decide (t % 64 ≥ b % 64) = false := by simp; omega
        rw [e1]
        simp [htm]
      · by_cases hts1 : t / 64 = b / 64 + 1
        · -- second touched word; only `b + len ≤ t` is possible here
          have htge : b + len ≤ t := by omega
          have hms : n_lowest_bits len >>> (64 - b % 64) < 2 ^ 64 := by
            have h1 : n_lowest_bits len >>> (64 - b % 64) ≤ n_lowest_bits len :=
              shiftRight_self_le _ _
            have h2 : n_lowest_bits len < 2 ^ 64 := n_lowest_bits_lt hlen
            omega
          rw [bit_of_set_ne (by omega), bit_of_set_self hs1L hts1]
          unfold bit_of
          rw [hts1]
          simp only [Nat.testBit_lor, Nat.testBit_land, testBit_not64 hms,
            Nat.testBit_shiftRight, testBit_n_lowest_bits hlen]
          have e1 : decide (64 - b % 64 + t % 64 < len) = false := by simp; omega
          have e2 : v.testBit (64 - b % 64 + t % 64) = false :=
            testBit_high_false hv (by omega)
          rw [e1, e2]
          simp [htm]
        · rw [bit_of_set_ne (by omega), bit_of_set_ne (by omega)]
    · simp only [hc, if_false]
      by_cases hts : t / 64 = b / 64
      · rw [bit_of_set_self hsL hts]
        unfold bit_of
        rw [hts]
        simp only [Nat.testBit_lor, Nat.testBit_land, testBit_not64 hmlt,
          Nat.testBit_mod_two_pow, Nat.testBit_shiftLeft, testBit_n_lowest_bits hlen]
        rcases ht with ht | ht
        · have e1 : decide (t % 64 ≥ b % 64) = false := by simp; omega
          rw [e1]
          simp [htm]
        · by_cases hge : t % 64 ≥ b % 64
          · have e1 : decide (t % 64 - b % 64 < len) = false := by simp; omega
            have e2 : v.testBit (t % 64 - b % 64) = false :=
              testBit_high_false hv (by omega)
            rw [e1, e2]
            simp [htm, hge]
          · have e1 : decide (t % 64 ≥ b % 64) = false := by simp [hge]
            rw [e1]
            simp [htm]
      · rw [bit_of_set_ne (by omega)]

theorem length_set_bits (arr : List Nat) (b v len : Nat) :
    (set_bits arr b v len).length = arr.length := by
  rw [set_bits]
  by_cases hc : b % 64 + len > 64 <;> simp [hc]

theorem wf_set_bits {arr : List Nat} (hw : Wf arr) {v : Nat} (hv : v < 2 ^ 64)
    (b : Nat) {len : Nat} (hlen : len ≤ 64) : Wf (set_bits arr b v len) := by
  have hnot : ∀ x : Nat, x < 2 ^ 64 → not64 x < 2 ^ 64 :=
    fun x hx => Nat.bitwise_lt hx (by omega)
  have hmask : n_lowest_bits len < 2 ^ 64 := n_lowest_bits_lt hlen
  rw [set_bits]
  by_cases hc : b % 64 + len > 64
  · simp only [hc, if_true]
    have hm2 : n_lowest_bits len >>> (64 - b % 64) < 2 ^ 64 := by
      have := shiftRight_self_le (n_lowest_bits len) (64 - b % 64)
      omega
    have hv2 : v >>> (64 - b % 64) < 2 ^ 64 := by
      have := shiftRight_self_le v (64 - b % 64)
      omega
    have hW2 : (wget arr (b / 64 + 1) &&& not64 (n_lowest_bits len >>> (64 - b % 64))) |||
        (v >>> (64 - b % 64)) < 2 ^ 64 :=
      Nat.bitwise_lt (Nat.bitwise_lt (wf_wget hw _) (hnot _ hm2)) hv2
    have hwf2 : Wf (arr.set (b / 64 + 1) _) := wf_set hw hW2 _
    exact wf_set hwf2
      (Nat.bitwise_lt (Nat.bitwise_lt (wf_wget hwf2 _) (hnot _ (Nat.mod_lt _ (by positivity))))
        (Nat.mod_lt _ (by positivity))) _
  · simp only [hc, if_false]
    exact wf_set hw
      (Nat.bitwise_lt (Nat.bitwise_lt (wf_wget hw _) (hnot _ (Nat.mod_lt _ (by positivity))))
        (Nat.mod_lt _ (by positivity))) _

/-- Round trip at the same range: reading back after `set_bits` yields `v`
truncated to `len` bits. -/
theorem get_set_bits {arr : List Nat} (hw : Wf arr) {len : Nat} (hlen : len ≤ 64)
    {b : Nat} (hb : b + len ≤ 64 * arr.length) {v : Nat} (hv : v < 2 ^ 64) :
    get_bits (set_bits arr b v len) b len = v % 2 ^ len := by
  apply Nat.eq_of_testBit_eq
  intro j
  rw [get_bits_testBit (wf_set_bits hw hv b hlen) hlen, Nat.testBit_mod_two_pow]
  by_cases hj : j < len
  · rw [set_bits_bit_in hlen hb v hj]
  · simp [hj]

/-! ### Distribution helpers for shifts over `|||` -/

theorem lor_shiftLeft_distrib (x y s : Nat) : (x ||| y) <<< s = (x <<< s) ||| (y <<< s) := by
  apply Nat.eq_of_testBit_eq
  intro j
  simp only [Nat.testBit_shiftLeft, Nat.testBit_lor]
  by_cases h : s ≤ j <;> simp [h]

theorem lor_shiftRight_distrib (x y s : Nat) : (x ||| y) >>> s = (x >>> s) ||| (y >>> s) := by
  apply Nat.eq_of_testBit_eq
  intro j
  simp [Nat.testBit_shiftRight, Nat.testBit_lor]

theorem lor_mod_two_pow (x y n : Nat) : (x ||| y) % 2 ^ n = (x % 2 ^ n) ||| (y % 2 ^ n) := by
  apply Nat.eq_of_testBit_eq
  intro j
  simp only [Nat.testBit_mod_two_pow, Nat.testBit_lor]
  by_cases h : j < n <;> simp [h]

theorem shiftLeft_64_mod (x : Nat) : (x <<< 64) % 2 ^ 64 = 0 := by
  rw [Nat.shiftLeft_eq]
  exact Nat.mul_mod_left _ _

theorem shiftRight_eq_zero {x s : Nat} (h : x < 2 ^ s) : x >>> s = 0 := by
  rw [Nat.shiftRight_eq_div_pow]
  exact Nat.div_eq_of_lt h

theorem shiftLeft_shiftLeft_64 {x o : Nat} (h : o ≤ 64) :
    (x <<< (64 - o)) <<< o = x <<< 64 := by
  simp only [Nat.shiftLeft_eq]
  rw [Nat.mul_assoc, ← pow_add]
  congr 2
  omega

/-! ### The conditional operations against their `get_bits`/`set_bits` compositions -/

/-- The specialized slice `conditionally_change_bits` is the composition of
`get_bits` and `set_bits`, literally. -/
theorem conditionally_change_bits_eq_default (arr : List Nat) (f : Nat → Option Nat)
    (b v_size : Nat) :
    conditionally_change_bits arr f b v_size =
      default_conditionally_change_bits arr f b v_size := by
  simp only [conditionally_change_bits, default_conditionally_change_bits, get_bits, set_bits]

theorem conditionally_copy_bits_eq_default {src : List Nat} (hsrc : Wf src)
    (dst : List Nat) (pred : Nat → Nat → Bool) (b v_size : Nat) :
    conditionally_copy_bits dst src pred b v_size =
      default_conditionally_copy_bits dst src pred b v_size := by
  have hb64 : 64 * (b / 64) + b % 64 = b := Nat.div_add_mod b 64
  have ho : b % 64 < 64 := Nat.mod_lt _ (by omega)
  simp only [conditionally_copy_bits, default_conditionally_copy_bits,
    default_conditionally_change_bits, get_bits, set_bits]
  by_cases hc : b % 64 + v_size > 64
  · simp only [hc, if_true]
    have hw1 : wget src (b / 64) >>> (b % 64) < 2 ^ (64 - b % 64) :=
      shiftRight_lt (wf_wget hsrc _) (by omega)
    have hsr : (wget src (b / 64) >>> (b % 64) |||
        (wget src (b / 64 + 1) &&& (n_lowest_bits v_size >>> (64 - b % 64))) <<< (64 - b % 64))
          >>> (64 - b % 64) =
        wget src (b / 64 + 1) &&& (n_lowest_bits v_size >>> (64 - b % 64)) := by
      rw [lor_shiftRight_distrib, shiftRight_eq_zero hw1,
        shiftLeft_shiftRight_cancel]
      simp
    have hsl : ((wget src (b / 64) >>> (b % 64) |||
        (wget src (b / 64 + 1) &&& (n_lowest_bits v_size >>> (64 - b % 64))) <<< (64 - b % 64))
          <<< (b % 64)) % 2 ^ 64 =
        ((wget src (b / 64) >>> (b % 64)) <<< (b % 64)) % 2 ^ 64 := by
      rw [lor_shiftLeft_distrib, lor_mod_two_pow, shiftLeft_shiftLeft_64 (by omega),
        shiftLeft_64_mod]
      simp
    cases hp : pred
        (wget dst (b / 64) >>> (b % 64) |||
          (wget dst (b / 64 + 1) &&& (n_lowest_bits v_size >>> (64 - b % 64))) <<< (64 - b % 64))
        (wget src (b / 64) >>> (b % 64) |||
          (wget src (b / 64 + 1) &&& (n_lowest_bits v_size >>> (64 - b % 64))) <<< (64 - b % 64)) <;>
      simp only [hp, if_true, if_false, Bool.false_eq_true, hsr, hsl]
  · simp only [hc, if_false]
    cases hp : pred (wget dst (b / 64) >>> (b % 64) &&& n_lowest_bits v_size)
        (wget src (b / 64) >>> (b % 64) &&& n_lowest_bits v_size) <;>
      simp only [hp, if_true, if_false, Bool.false_eq_true]

/-! ### Claim C1 -/

/-- C1: for every width in 1..=64, every `v < 2 ^ width`, and every index `i`
whose fragment `[i*width, i*width+width)` lies within the array, on a freshly
zeroed word array `set_fragment` followed by `get_fragment` returns `v`,
including when the fragment straddles a 64-bit word boundary. -/
theorem C1_set_get_fragment_round_trip {n i width v : Nat}
    (_hw1 : 1 ≤ width) (hw64 : width ≤ 64) (hv : v < 2 ^ width)
    (hbound : (i + 1) * width ≤ 64 * n) :
    get_fragment (set_fragment (with_zeroed_64bit_segments n) i v width) i width = v := by
  have hwf : Wf (with_zeroed_64bit_segments n) := by
    intro w hw
    rw [List.eq_of_mem_replicate hw]
    positivity
  have hlen : (with_zeroed_64bit_segments n).length = n := by
    simp [with_zeroed_64bit_segments, with_64bit_segments]
  have hb : i * width + width ≤ 64 * n := by
    have he : (i + 1) * width = i * width + width := by ring
    omega
  rw [get_fragment, set_fragment,
    get_set_bits hwf hw64 (by rw [hlen]; exact hb)
      (lt_of_lt_of_le hv (Nat.pow_le_pow_right (by omega) hw64)),
    Nat.mod_eq_of_lt hv]

/-- Witness for C1 at a fragment straddling the word boundary:
width 7, index 9 occupies bits [63, 70). -/
theorem C1_set_get_fragment_round_trip_witness :
    1 ≤ 7 ∧ 7 ≤ 64 ∧ 100 < 2 ^ 7 ∧ (9 + 1) * 7 ≤ 64 * 2 ∧
      get_fragment (set_fragment (with_zeroed_64bit_segments 2) 9 100 7) 9 7 = 100 :=
  ⟨by norm_num, by norm_num, by norm_num, by norm_num,
    C1_set_get_fragment_round_trip (by norm_num) (by norm_num) (by norm_num) (by norm_num)⟩

/-! ### Claim C6 -/

/-- C6: frame property of `set_bits`: with the documented precondition
`v < 2 ^ len`, `set_bits` stores the bits of `v` at `[b, b+len)` and leaves
every bit outside that range unchanged, straddling ranges included. -/
theorem C6_set_bits_frame {arr : List Nat} {b v len : Nat} (hlen : len ≤ 64)
    (hv : v < 2 ^ len) (hb : b + len ≤ 64 * arr.length) :
    (∀ j, j < len → bit_of (set_bits arr b v len) (b + j) = v.testBit j) ∧
    (∀ t, t < b ∨ b + len ≤ t → bit_of (set_bits arr b v len) t = bit_of arr t) :=
  ⟨fun _ hj => set_bits_bit_in hlen hb v hj, fun _ ht => set_bits_bit_out hlen hb hv ht⟩

/-- Witness for C6 at a straddling range [60, 68) in an all-ones array. -/
theorem C6_set_bits_frame_witness :
    (8 ≤ 64 ∧ 171 < 2 ^ 8 ∧ 60 + 8 ≤ 64 * [2 ^ 64 - 1, 2 ^ 64 - 1].length) ∧
      bit_of (set_bits [2 ^ 64 - 1, 2 ^ 64 - 1] 60 171 8) (60 + 5) = Nat.testBit 171 5 ∧
      bit_of (set_bits [2 ^ 64 - 1, 2 ^ 64 - 1] 60 171 8) 70 = bit_of [2 ^ 64 - 1, 2 ^ 64 - 1] 70 :=
  ⟨⟨by norm_num, by norm_num, by norm_num⟩,
    (C6_set_bits_frame (by norm_num) (by norm_num) (by norm_num)).1 5 (by norm_num),
    (C6_set_bits_frame (by norm_num) (by norm_num) (by norm_num)).2 70 (by norm_num)⟩

/-! ### Claim C2 -/

/-- C2: `conditionally_change_bits` returns the pre-call value of the range;
a transform answering `none` leaves the array bit-for-bit identical; a
transform answering `some v` performs the `set_bits` write and a subsequent
`get_bits` of the range returns `v` masked to `len` bits. -/
theorem C2_conditionally_change_bits_contract {arr : List Nat} (hw : Wf arr)
    (f : Nat → Option Nat) {b len : Nat} (hlen : len ≤ 64)
    (hb : b + len ≤ 64 * arr.length) :
    (conditionally_change_bits arr f b len).1 = get_bits arr b len ∧
    (f (get_bits arr b len) = none → (conditionally_change_bits arr f b len).2 = arr) ∧
    (∀ v, f (get_bits arr b len) = some v → v < 2 ^ 64 →
      (conditionally_change_bits arr f b len).2 = set_bits arr b v len ∧
      get_bits (conditionally_change_bits arr f b len).2 b len = v % 2 ^ len) := by
  refine ⟨?_, ?_, ?_⟩
  · rw [conditionally_change_bits_eq_default, default_conditionally_change_bits]
    cases hf : f (get_bits arr b len) <;> simp [hf]
  · intro hf
    rw [conditionally_change_bits_eq_default, default_conditionally_change_bits]
    simp [hf]
  · intro v hf hv
    constructor
    · rw [conditionally_change_bits_eq_default, default_conditionally_change_bits]
      simp [hf]
    · rw [conditionally_change_bits_eq_default, default_conditionally_change_bits]
      simp only [hf]
      exact get_set_bits hw hlen hb hv

/-- Witness for C2 on a straddling range with a transform that writes 77. -/
theorem C2_conditionally_change_bits_contract_witness :
    (Wf [0, 0] ∧ 8 ≤ 64 ∧ 60 + 8 ≤ 64 * [0, 0].length) ∧
      (conditionally_change_bits [0, 0] (fun x => some (x + 77)) 60 8).2 =
        set_bits [0, 0] 60 77 8 ∧
      get_bits (conditionally_change_bits [0, 0] (fun x => some (x + 77)) 60 8).2 60 8 =
        77 % 2 ^ 8 := by
  have happ := (@C2_conditionally_change_bits_contract [0, 0] (by decide)
    (fun x => some (x + 77)) 60 8 (by norm_num) (by norm_num)).2.2 77
    (by decide) (by norm_num)
  exact ⟨⟨by decide, by norm_num, by norm_num⟩, happ.1, happ.2⟩

/-! ### Claim C3 -/

/-- C3: `conditionally_copy_bits` evaluates the predicate on the pre-write
values of both ranges; on `false` it leaves `dst` completely unchanged, on
`true` the range of `dst` afterwards equals the pre-call range value of `src`
while every bit of `dst` outside the range is unchanged. -/
theorem C3_conditionally_copy_bits_contract {dst src : List Nat} (hd : Wf dst)
    (hs : Wf src) (_hsize : src.length = dst.length) (p : Nat → Nat → Bool)
    {b len : Nat} (hlen : len ≤ 64) (hb : b + len ≤ 64 * dst.length) :
    (p (get_bits dst b len) (get_bits src b len) = false →
      conditionally_copy_bits dst src p b len = dst) ∧
    (p (get_bits dst b len) (get_bits src b len) = true →
      get_bits (conditionally_copy_bits dst src p b len) b len = get_bits src b len ∧
      ∀ t, t < b ∨ b + len ≤ t →
        bit_of (conditionally_copy_bits dst src p b len) t = bit_of dst t) := by
  have heq := conditionally_copy_bits_eq_default hs dst p b len
  constructor
  · intro hp
    rw [heq, default_conditionally_copy_bits, default_conditionally_change_bits]
    simp [hp]
  · intro hp
    have h2 : conditionally_copy_bits dst src p b len =
        set_bits dst b (get_bits src b len) len := by
      rw [heq, default_conditionally_copy_bits, default_conditionally_change_bits]
      simp [hp]
    rw [h2]
    have hvlt : get_bits src b len < 2 ^ len := get_bits_lt hs hlen b
    have hvlt64 : get_bits src b len < 2 ^ 64 :=
      lt_of_lt_of_le hvlt (Nat.pow_le_pow_right (by omega) hlen)
    refine ⟨?_, fun t ht => set_bits_bit_out hlen hb hvlt ht⟩
    rw [get_set_bits hd hlen hb hvlt64, Nat.mod_eq_of_lt hvlt]

/-- Witness for C3 on a straddling range with a true predicate. -/
theorem C3_conditionally_copy_bits_contract_witness :
    (Wf [0, 0] ∧ Wf [2 ^ 64 - 1, 2 ^ 64 - 1] ∧
      ([2 ^ 64 - 1, 2 ^ 64 - 1] : List Nat).length = ([0, 0] : List Nat).length ∧
      8 ≤ 64 ∧ 60 + 8 ≤ 64 * ([0, 0] : List Nat).length) ∧
      get_bits (conditionally_copy_bits [0, 0] [2 ^ 64 - 1, 2 ^ 64 - 1]
          (fun a c => decide (a < c)) 60 8) 60 8 =
        get_bits [2 ^ 64 - 1, 2 ^ 64 - 1] 60 8 ∧
      bit_of (conditionally_copy_bits [0, 0] [2 ^ 64 - 1, 2 ^ 64 - 1]
          (fun a c => decide (a < c)) 60 8) 59 = bit_of [0, 0] 59 := by
  have happ := (@C3_conditionally_copy_bits_contract [0, 0] [2 ^ 64 - 1, 2 ^ 64 - 1]
    (by decide) (by decide) (by norm_num)
    (fun a c => decide (a < c)) 60 8 (by norm_num) (by norm_num)).2 (by decide)
  exact ⟨⟨by decide, by decide, by norm_num, by norm_num, by norm_num⟩,
    happ.1, happ.2 59 (by norm_num)⟩

/-! ### Claim C10 -/

/-- C10: the specialized slice implementations of `conditionally_change_bits`
and `conditionally_copy_bits` return the same value and produce the same final
array contents as the generic default trait implementations composed from
`get_bits` and `set_bits`. -/
theorem C10_specialized_eq_default {src : List Nat} (hs : Wf src) (dst : List Nat)
    (f : Nat → Option Nat) (p : Nat → Nat → Bool) (b v_size : Nat) :
    conditionally_change_bits dst f b v_size =
      default_conditionally_change_bits dst f b v_size ∧
    conditionally_copy_bits dst src p b v_size =
      default_conditionally_copy_bits dst src p b v_size :=
  ⟨conditionally_change_bits_eq_default dst f b v_size,
    conditionally_copy_bits_eq_default hs dst p b v_size⟩

/-- Witness for C10 on a straddling range. -/
theorem C10_specialized_eq_default_witness :
    Wf [3, 5] ∧
      conditionally_change_bits [1, 2] (fun x => some (x + 1)) 60 8 =
        default_conditionally_change_bits [1, 2] (fun x => some (x + 1)) 60 8 ∧
      conditionally_copy_bits [1, 2] [3, 5] (fun a c => decide (a ≤ c)) 60 8 =
        default_conditionally_copy_bits [1, 2] [3, 5] (fun a c => decide (a ≤ c)) 60 8 :=
  ⟨by decide,
    (@C10_specialized_eq_default [3, 5] (by decide) [1, 2]
      (fun x => some (x + 1)) (fun a c => decide (a ≤ c)) 60 8).1,
    (@C10_specialized_eq_default [3, 5] (by decide) [1, 2]
      (fun x => some (x + 1)) (fun a c => decide (a ≤ c)) 60 8).2⟩

/-! ### Bit-level characterization of `init_fragment` -/

theorem init_fragment_oob {arr : List Nat} {i v w : Nat}
    (h : arr.length ≤ i * w / 64) : init_fragment arr i v w = arr := by
  rw [init_fragment]
  by_cases hc : i * w % 64 + w > 64
  · simp only [hc, if_true]
    rw [wget_set_oob (le_trans h (Nat.le_succ _)), wget_set_oob h]
  · simp only [hc, if_false]
    rw [wget_set_oob h]

/-- Inside the fragment, `init_fragment` ORs the bits of `v` onto the old bits. -/
theorem init_fragment_bit_in {arr : List Nat} {w : Nat} (hlen : w ≤ 64)
    {i : Nat} (hb : i * w + w ≤ 64 * arr.length) (v : Nat) {j : Nat} (hj : j < w) :
    bit_of (init_fragment arr i v w) (i * w + j) =
      (bit_of arr (i * w + j) || v.testBit j) := by
  have hb64 : 64 * (i * w / 64) + i * w % 64 = i * w := Nat.div_add_mod (i * w) 64
  have ho : i * w % 64 < 64 := Nat.mod_lt _ (by omega)
  have hsL : i * w / 64 < arr.length := by omega
  rw [init_fragment]
  by_cases hc : i * w % 64 + w > 64
  · have hs1L : i * w / 64 + 1 < arr.length := by omega
    simp only [hc, if_true]
    by_cases hj1 : j < 64 - i * w % 64
    · rw [bit_of_set_self (by simpa using hsL) (by omega),
        wget_set_ne (by omega),
        show (i * w + j) % 64 = i * w % 64 + j from by omega]
      simp only [Nat.testBit_lor, Nat.testBit_mod_two_pow, Nat.testBit_shiftLeft]
      have e1 : i * w % 64 + j - i * w % 64 = j := by omega
      have hlt : i * w % 64 + j < 64 := by omega
      rw [e1]
      unfold bit_of
      rw [show (i * w + j) / 64 = i * w / 64 from by omega,
        show (i * w + j) % 64 = i * w % 64 + j from by omega]
      simp [hlt]
    · rw [bit_of_set_ne (by omega),
        bit_of_set_self hs1L (by omega),
        show (i * w + j) % 64 = j - (64 - i * w % 64) from by omega]
      simp only [Nat.testBit_lor, Nat.testBit_shiftRight]
      have e1 : 64 - i * w % 64 + (j - (64 - i * w % 64)) = j := by omega
      rw [e1]
      unfold bit_of
      rw [show (i * w + j) / 64 = i * w / 64 + 1 from by omega,
        show (i * w + j) % 64 = j - (64 - i * w % 64) from by omega]
  · simp only [hc, if_false]
    rw [bit_of_set_self hsL (by omega),
      show (i * w + j) % 64 = i * w % 64 + j from by omega]
    simp only [Nat.testBit_lor, Nat.testBit_mod_two_pow, Nat.testBit_shiftLeft]
    have e1 : i * w % 64 + j - i * w % 64 = j := by omega
    have hlt : i * w % 64 + j < 64 := by omega
    rw [e1]
    unfold bit_of
    rw [show (i * w + j) / 64 = i * w / 64 from by omega,
      show (i * w + j) % 64 = i * w % 64 + j from by omega]
    simp [hlt]

/-- Outside the fragment, `init_fragment` with `v < 2 ^ w` changes nothing. -/
theorem init_fragment_bit_out {arr : List Nat} {w : Nat} (hlen : w ≤ 64)
    {i : Nat} (hb : i * w + w ≤ 64 * arr.length) {v : Nat} (hv : v < 2 ^ w)
    {t : Nat} (ht : t < i * w ∨ i * w + w ≤ t) :
    bit_of (init_fragment arr i v w) t = bit_of arr t := by
  have hb64 : 64 * (i * w / 64) + i * w % 64 = i * w := Nat.div_add_mod (i * w) 64
  have ho : i * w % 64 < 64 := Nat.mod_lt _ (by omega)
  have ht64 : 64 * (t / 64) + t % 64 = t := Nat.div_add_mod t 64
  have htm : t % 64 < 64 := Nat.mod_lt _ (by omega)
  by_cases hsoob : arr.length ≤ i * w / 64
  · rw [init_fragment_oob hsoob]
  · have hsL : i * w / 64 < arr.length := by omega
    rw [init_fragment]
    by_cases hc : i * w % 64 + w > 64
    · have hs1L : i * w / 64 + 1 < arr.length := by omega
      simp only [hc, if_true]
      by_cases hts : t / 64 = i * w / 64
      · have htlt : t < i * w := by omega
        rw [bit_of_set_self (by simpa using hsL) hts, wget_set_ne (by omega)]
        unfold bit_of
        rw [hts]
        simp only [Nat.testBit_lor, Nat.testBit_mod_two_pow, Nat.testBit_shiftLeft]
        have e1 : decide (t % 64 ≥ i * w % 64) = false := by simp; omega
        rw [e1]
        simp
      · by_cases hts1 : t / 64 = i * w / 64 + 1
        · have htge : i * w + w ≤ t := by omega
          rw [bit_of_set_ne (by omega), bit_of_set_self hs1L hts1]
          unfold bit_of
          rw [hts1]
          simp only [Nat.testBit_lor, Nat.testBit_shiftRight]
          have e2 : v.testBit (64 - i * w % 64 + t % 64) = false :=
            testBit_high_false hv (by omega)
          rw [e2]
          simp
        · rw [bit_of_set_ne (by omega), bit_of_set_ne (by omega)]
    · simp only [hc, if_false]
      by_cases hts : t / 64 = i * w / 64
      · rw [bit_of_set_self hsL hts]
        unfold bit_of
        rw [hts]
        simp only [Nat.testBit_lor, Nat.testBit_mod_two_pow, Nat.testBit_shiftLeft]
        rcases ht with ht | ht
        · have e1 : decide (t % 64 ≥ i * w % 64) = false := by simp; omega
          rw [e1]
          simp
        · by_cases hge : t % 64 ≥ i * w % 64
          · have e2 : v.testBit (t % 64 - i * w % 64) = false :=
              testBit_high_false hv (by omega)
            rw [e2]
            simp
          · have e1 : decide (t % 64 ≥ i * w % 64) = false := by simp [hge]
            rw [e1]
            simp
      · rw [bit_of_set_ne (by omega)]

theorem wf_init_fragment {arr : List Nat} (hw : Wf arr) {v : Nat} (hv : v < 2 ^ 64)
    (i w : Nat) : Wf (init_fragment arr i v w) := by
  rw [init_fragment]
  by_cases hc : i * w % 64 + w > 64
  · simp only [hc, if_true]
    have hv2 : v >>> (64 - i * w % 64) < 2 ^ 64 := by
      have := shiftRight_self_le v (64 - i * w % 64)
      omega
    have hwf2 : Wf (arr.set (i * w / 64 + 1)
        (wget arr (i * w / 64 + 1) ||| (v >>> (64 - i * w % 64)))) :=
      wf_set hw (Nat.bitwise_lt (wf_wget hw _) hv2) _
    exact wf_set hwf2
      (Nat.bitwise_lt (wf_wget hwf2 _) (Nat.mod_lt _ (by positivity))) _
  · simp only [hc, if_false]
    exact wf_set hw
      (Nat.bitwise_lt (wf_wget hw _) (Nat.mod_lt _ (by positivity))) _

/-- Reading the fragment back after `init_fragment`: the old value ORed with `v`. -/
theorem get_init_fragment {arr : List Nat} (hw : Wf arr) {w : Nat} (hlen : w ≤ 64)
    {i : Nat} (hb : i * w + w ≤ 64 * arr.length) {v : Nat} (hv : v < 2 ^ w) :
    get_fragment (init_fragment arr i v w) i w = get_fragment arr i w ||| v := by
  have hv64 : v < 2 ^ 64 := lt_of_lt_of_le hv (Nat.pow_le_pow_right (by omega) hlen)
  apply Nat.eq_of_testBit_eq
  intro j
  rw [get_fragment, get_bits_testBit (wf_init_fragment hw hv64 i w) hlen,
    Nat.testBit_lor, get_fragment, get_bits_testBit hw hlen]
  by_cases hj : j < w
  · rw [init_fragment_bit_in hlen hb v hj]
    simp [hj]
  · have e2 : v.testBit j = false := testBit_high_false hv (by omega)
    simp [hj, e2]

theorem bit_of_zeroed (n t : Nat) : bit_of (with_zeroed_64bit_segments n) t = false := by
  unfold bit_of wget with_zeroed_64bit_segments with_64bit_segments
  by_cases h : t / 64 < n
  · rw [List.getD_eq_getElem _ _ (by simpa using h)]
    simp
  · rw [List.getD_eq_default _ _ (by simpa using h)]
    simp

theorem wf_zeroed (n : Nat) : Wf (with_zeroed_64bit_segments n) := by
  intro x hx
  rw [List.eq_of_mem_replicate hx]
  positivity

theorem get_bits_zeroed {len : Nat} (hlen : len ≤ 64) (n b : Nat) :
    get_bits (with_zeroed_64bit_segments n) b len = 0 := by
  apply Nat.eq_of_testBit_eq
  intro j
  rw [get_bits_testBit (wf_zeroed n) hlen, bit_of_zeroed]
  simp

theorem length_init_fragment (arr : List Nat) (i v w : Nat) :
    (init_fragment arr i v w).length = arr.length := by
  rw [init_fragment]
  by_cases hc : i * w % 64 + w > 64 <;> simp [hc]

theorem length_zeroed (n : Nat) : (with_zeroed_64bit_segments n).length = n := by
  simp [with_zeroed_64bit_segments, with_64bit_segments]

/-! ### Claim C7 -/

/-- C7: for an in-bounds fragment holding `f`, `init_fragment` leaves the
fragment holding `f ||| v` and every bit outside it unchanged; in particular on
a zeroed array a double `init_fragment` with the same `v` yields `v` both times
and leaves the neighbouring fragments unchanged. -/
theorem C7_init_fragment_contract {arr : List Nat} {i v width : Nat} (hw : Wf arr)
    (_h1 : 1 ≤ width) (h64 : width ≤ 64) (hv : v < 2 ^ width)
    (hb : (i + 1) * width ≤ 64 * arr.length) :
    (get_fragment (init_fragment arr i v width) i width =
      get_fragment arr i width ||| v) ∧
    (∀ t, t < i * width ∨ i * width + width ≤ t →
      bit_of (init_fragment arr i v width) t = bit_of arr t) ∧
    (∀ n, (i + 1) * width ≤ 64 * n →
      get_fragment (init_fragment (with_zeroed_64bit_segments n) i v width) i width = v ∧
      get_fragment (init_fragment
        (init_fragment (with_zeroed_64bit_segments n) i v width) i v width) i width = v ∧
      (1 ≤ i → get_fragment (init_fragment
          (init_fragment (with_zeroed_64bit_segments n) i v width) i v width) (i - 1) width =
        get_fragment (with_zeroed_64bit_segments n) (i - 1) width) ∧
      get_fragment (init_fragment
          (init_fragment (with_zeroed_64bit_segments n) i v width) i v width) (i + 1) width =
        get_fragment (with_zeroed_64bit_segments n) (i + 1) width) := by
  have hmul : (i + 1) * width = i * width + width := by ring
  have hbf : i * width + width ≤ 64 * arr.length := by omega
  have hv64 : v < 2 ^ 64 := lt_of_lt_of_le hv (Nat.pow_le_pow_right (by omega) h64)
  refine ⟨get_init_fragment hw h64 hbf hv,
    fun t ht => init_fragment_bit_out h64 hbf hv ht, ?_⟩
  intro n hn
  have hbz : i * width + width ≤ 64 * n := by omega
  have hbz1 : i * width + width ≤ 64 * (with_zeroed_64bit_segments n).length := by
    rw [length_zeroed]
    exact hbz
  have wfz := wf_zeroed n
  have wf1 := wf_init_fragment wfz hv64 i width
  have wf2 := wf_init_fragment wf1 hv64 i width
  have hbz2 : i * width + width ≤
      64 * (init_fragment (with_zeroed_64bit_segments n) i v width).length := by
    rw [length_init_fragment, length_zeroed]
    exact hbz
  have honce : get_fragment
      (init_fragment (with_zeroed_64bit_segments n) i v width) i width = v := by
    rw [get_init_fragment wfz h64 hbz1 hv, get_fragment, get_bits_zeroed h64]
    simp
  have htwice : get_fragment (init_fragment
      (init_fragment (with_zeroed_64bit_segments n) i v width) i v width) i width = v := by
    rw [get_init_fragment wf1 h64 hbz2 hv, honce]
    simp
  refine ⟨honce, htwice, ?_, ?_⟩
  · intro hi
    rw [get_fragment, get_fragment]
    apply get_bits_congr wf2 wfz h64
    intro j hj
    have hout1 : (i - 1) * width + j < i * width := by
      have h3 : (i - 1) * width + width = i * width := by
        have h4 : i - 1 + 1 = i := by omega
        calc (i - 1) * width + width = (i - 1 + 1) * width := by ring
        _ = i * width := by rw [h4]
      omega
    rw [init_fragment_bit_out h64 hbz2 hv (Or.inl hout1),
      init_fragment_bit_out h64 hbz1 hv (Or.inl hout1)]
  · rw [get_fragment, get_fragment]
    apply get_bits_congr wf2 wfz h64
    intro j hj
    have hout : i * width + width ≤ (i + 1) * width + j := by omega
    rw [init_fragment_bit_out h64 hbz2 hv (Or.inr hout),
      init_fragment_bit_out h64 hbz1 hv (Or.inr hout)]

/-- Witness for C7 with a straddling fragment (width 7, index 9, bits [63,70)). -/
theorem C7_init_fragment_contract_witness :
    (Wf [2 ^ 64 - 1, 17] ∧ 1 ≤ 7 ∧ 7 ≤ 64 ∧ 100 < 2 ^ 7 ∧
      (9 + 1) * 7 ≤ 64 * [2 ^ 64 - 1, 17].length) ∧
      get_fragment (init_fragment [2 ^ 64 - 1, 17] 9 100 7) 9 7 =
        get_fragment [2 ^ 64 - 1, 17] 9 7 ||| 100 ∧
      bit_of (init_fragment [2 ^ 64 - 1, 17] 9 100 7) 5 = bit_of [2 ^ 64 - 1, 17] 5 ∧
      get_fragment (init_fragment (with_zeroed_64bit_segments 2) 9 100 7) 9 7 = 100 ∧
      get_fragment (init_fragment
        (init_fragment (with_zeroed_64bit_segments 2) 9 100 7) 9 100 7) 9 7 = 100 ∧
      get_fragment (init_fragment
          (init_fragment (with_zeroed_64bit_segments 2) 9 100 7) 9 100 7) 8 7 =
        get_fragment (with_zeroed_64bit_segments 2) 8 7 ∧
      get_fragment (init_fragment
          (init_fragment (with_zeroed_64bit_segments 2) 9 100 7) 9 100 7) 10 7 =
        get_fragment (with_zeroed_64bit_segments 2) 10 7 := by
  have happ := @C7_init_fragment_contract [2 ^ 64 - 1, 17] 9 100 7 (by decide)
    (by norm_num) (by norm_num) (by norm_num) (by norm_num)
  have hz := happ.2.2 2 (by norm_num)
  exact ⟨⟨by decide, by norm_num, by norm_num, by norm_num, by norm_num⟩,
    happ.1, happ.2.1 5 (by norm_num), hz.1, hz.2.1, hz.2.2.1 (by norm_num), hz.2.2.2⟩

/-! ### Claim C4 -/

/-- Counterexample to C4 as stated: for the non-straddling call
`xor_bits [0,0] 0 0b10 1`, bit 1 is altered, it lies outside the nominal
range `[0, 1)`, and it lies in the *first* word (word `1 / 64 = 0 / 64`), so
altered out-of-range bits are not confined to the second word and the first
word's alterations are not confined to the range. -/
theorem C4_counterexample :
    bit_of (xor_bits [0, 0] 0 2 1) 1 ≠ bit_of [0, 0] 1 ∧
    ¬ (0 ≤ 1 ∧ 1 < 0 + 1) ∧ (1 : Nat) / 64 = 0 / 64 := by decide

/-- C4 amended: restricted to ranges that straddle a word boundary
(`b % 64 + len > 64`), every bit altered by `xor_bits` outside the nominal
range `[b, b+len)` lies in the second word, and every altered bit of the first
word lies in the range. -/
theorem C4_xor_bits_leak_straddling {arr : List Nat} {b v len : Nat}
    (hc : b % 64 + len > 64) (hb : b + len ≤ 64 * arr.length) :
    ∀ t, bit_of (xor_bits arr b v len) t ≠ bit_of arr t →
      (b ≤ t ∧ t < b + len) ∨ t / 64 = b / 64 + 1 := by
  have hb64 : 64 * (b / 64) + b % 64 = b := Nat.div_add_mod b 64
  have ho : b % 64 < 64 := Nat.mod_lt _ (by omega)
  have hsL : b / 64 < arr.length := by omega
  intro t hne
  have ht64 : 64 * (t / 64) + t % 64 = t := Nat.div_add_mod t 64
  have htm : t % 64 < 64 := Nat.mod_lt _ (by omega)
  by_cases hts1 : t / 64 = b / 64 + 1
  · exact Or.inr hts1
  · by_cases hts : t / 64 = b / 64
    · left
      rw [xor_bits] at hne
      simp only [hc, if_true] at hne
      rw [bit_of_set_self (by simpa using hsL) hts, wget_set_ne (by omega)] at hne
      unfold bit_of at hne
      rw [hts] at hne
      rw [Nat.testBit_xor] at hne
      have hm : ((v <<< (b % 64)) % 2 ^ 64).testBit (t % 64) = true := by
        cases hmb : ((v <<< (b % 64)) % 2 ^ 64).testBit (t % 64)
        · rw [hmb] at hne
          simp at hne
        · rfl
      rw [Nat.testBit_mod_two_pow, Nat.testBit_shiftLeft] at hm
      have hge : b % 64 ≤ t % 64 := by
        by_contra hlt
        simp [hlt] at hm
      constructor
      · omega
      · omega
    · rw [xor_bits] at hne
      simp only [hc, if_true] at hne
      rw [bit_of_set_ne (by omega), bit_of_set_ne (by omega)] at hne
      exact absurd rfl hne

/-- Witness for the amended C4 at a straddling range [60, 68) with a `v`
holding a bit at position 9 ≥ len = 8. -/
theorem C4_xor_bits_leak_straddling_witness :
    (60 % 64 + 8 > 64 ∧ 60 + 8 ≤ 64 * [0, 0].length) ∧
      (bit_of (xor_bits [0, 0] 60 512 8) 66 ≠ bit_of [0, 0] 66 →
        (60 ≤ 66 ∧ 66 < 60 + 8) ∨ 66 / 64 = 60 / 64 + 1) :=
  ⟨⟨by norm_num, by norm_num⟩,
    @C4_xor_bits_leak_straddling [0, 0] 60 512 8 (by norm_num) (by norm_num) 66⟩

/-! ### Claim C5 -/

/-- Counterexample to C5 as stated: in the claimed scenario (all-ones 2-word
array, `clear_bit 73`, then directly `xor_bits 72 0b011 3` with no intervening
`set_bit`), the xor flips the cleared bit 73 back to one, so `get_bit 73` is
`true`, not `false` as claimed (the source test sets bit 73 again between the
two steps). -/
theorem C5_counterexample :
    ¬ (count_bit_ones (with_filled_64bit_segments 2) = 128 ∧
       count_bit_ones (clear_bit (with_filled_64bit_segments 2) 73) = 127 ∧
       get_bit (clear_bit (with_filled_64bit_segments 2) 73) 73 = false ∧
       get_bit (clear_bit (with_filled_64bit_segments 2) 73) 72 = true ∧
       get_bit (clear_bit (with_filled_64bit_segments 2) 73) 74 = true ∧
       get_bit (xor_bits (clear_bit (with_filled_64bit_segments 2) 73) 72 3 3) 72 = false ∧
       get_bit (xor_bits (clear_bit (with_filled_64bit_segments 2) 73) 72 3 3) 73 = false ∧
       get_bit (xor_bits (clear_bit (with_filled_64bit_segments 2) 73) 72 3 3) 74 = true) := by
  decide

/-- C5 amended: the same scenario with the one forced change: after
`clear_bit 73` followed by `xor_bits 72 0b011 3`, bit 73 reads `true`
(the xor flips the cleared bit), while the other claimed values hold. -/
theorem C5_scenario :
    count_bit_ones (with_filled_64bit_segments 2) = 128 ∧
    count_bit_ones (clear_bit (with_filled_64bit_segments 2) 73) = 127 ∧
    get_bit (clear_bit (with_filled_64bit_segments 2) 73) 73 = false ∧
    get_bit (clear_bit (with_filled_64bit_segments 2) 73) 72 = true ∧
    get_bit (clear_bit (with_filled_64bit_segments 2) 73) 74 = true ∧
    get_bit (xor_bits (clear_bit (with_filled_64bit_segments 2) 73) 72 3 3) 72 = false ∧
    get_bit (xor_bits (clear_bit (with_filled_64bit_segments 2) 73) 72 3 3) 73 = true ∧
    get_bit (xor_bits (clear_bit (with_filled_64bit_segments 2) 73) 72 3 3) 74 = true := by
  decide

/-! ### `trailing_zeros` and word popcount lemmas -/

theorem trailing_zeros_testBit {n : Nat} (h : n ≠ 0) :
    n.testBit (trailing_zeros n) = true := by
  induction n using Nat.strong_induction_on with
  | _ n ih =>
    rw [trailing_zeros]
    simp only [h, if_false]
    by_cases h2 : n % 2 = 1
    · simp [h2, Nat.testBit_zero]
    · have hn2 : n / 2 ≠ 0 := by omega
      simp only [h2, if_false, Nat.testBit_succ]
      exact ih (n / 2) (Nat.div_lt_self (by omega) (by omega)) hn2

theorem trailing_zeros_min (n : Nat) : ∀ j, j < trailing_zeros n → n.testBit j = false := by
  induction n using Nat.strong_induction_on with
  | _ n ih =>
    intro j hj
    by_cases h : n = 0
    · rw [h, Nat.zero_testBit]
    · rw [trailing_zeros] at hj
      simp only [h, if_false] at hj
      by_cases h2 : n % 2 = 1
      · simp [h2] at hj
      · simp only [h2, if_false] at hj
        match j with
        | 0 => simp [Nat.testBit_zero]; omega
        | k + 1 =>
          rw [Nat.testBit_succ]
          exact ih (n / 2) (Nat.div_lt_self (by omega) (by omega)) k (by omega)

theorem trailing_zeros_lt_64 {n : Nat} (h0 : n ≠ 0) (h : n < 2 ^ 64) :
    trailing_zeros n < 64 := by
  by_contra hge
  have h1 := trailing_zeros_testBit h0
  rw [testBit_high_false h (by omega)] at h1
  exact Bool.false_ne_true h1

/-- Clearing the lowest set bit strictly decreases the word. -/
theorem xor_lowest_lt {n : Nat} (h : n ≠ 0) : n ^^^ (1 <<< trailing_zeros n) < n := by
  rw [Nat.one_shiftLeft]
  apply Nat.lt_of_testBit (trailing_zeros n)
  · rw [Nat.testBit_xor, trailing_zeros_testBit h, Nat.testBit_two_pow_self]
    rfl
  · exact trailing_zeros_testBit h
  · intro j hj
    rw [Nat.testBit_xor, Nat.testBit_two_pow_of_ne (by omega)]
    simp

/-- Clearing the lowest set bit strictly increases the trailing-zero count
(when the result is still nonzero). -/
theorem trailing_zeros_xor_gt {n : Nat} (h : n ≠ 0)
    (h2 : n ^^^ (1 <<< trailing_zeros n) ≠ 0) :
    trailing_zeros n < trailing_zeros (n ^^^ (1 <<< trailing_zeros n)) := by
  have hs : (1 <<< trailing_zeros n) = 2 ^ trailing_zeros n := Nat.one_shiftLeft _
  rw [hs] at h2 ⊢
  by_contra hle
  push_neg at hle
  have hbit := trailing_zeros_testBit h2
  rcases Nat.lt_or_eq_of_le hle with hlt | heq
  · rw [Nat.testBit_xor, trailing_zeros_min n _ hlt,
      Nat.testBit_two_pow_of_ne (by omega)] at hbit
    simp at hbit
  · rw [Nat.testBit_xor, heq, trailing_zeros_testBit h,
      Nat.testBit_two_pow_self] at hbit
    simp at hbit

theorem count_ones64_zero : count_ones64 0 = 0 := by decide

/-- Clearing the lowest set bit of a nonzero 64-bit word decrements its popcount. -/
theorem count_ones64_xor_lowest {n : Nat} (h : n ≠ 0) (h64 : n < 2 ^ 64) :
    count_ones64 (n ^^^ (1 <<< trailing_zeros n)) + 1 = count_ones64 n := by
  have htz : trailing_zeros n < 64 := trailing_zeros_lt_64 h h64
  have hmem : trailing_zeros n ∈
      (Finset.range 64).filter (fun i => n.testBit i = true) := by
    rw [Finset.mem_filter, Finset.mem_range]
    exact ⟨htz, trailing_zeros_testBit h⟩
  have hfil : (Finset.range 64).filter
        (fun i => (n ^^^ (1 <<< trailing_zeros n)).testBit i = true) =
      ((Finset.range 64).filter (fun i => n.testBit i = true)).erase (trailing_zeros n) := by
    ext j
    rw [Finset.mem_erase, Finset.mem_filter, Finset.mem_filter, Finset.mem_range,
      Nat.one_shiftLeft, Nat.testBit_xor]
    by_cases hji : j = trailing_zeros n
    · rw [hji, Nat.testBit_two_pow_self, trailing_zeros_testBit h]
      simp
    · rw [Nat.testBit_two_pow_of_ne (fun hh => hji hh.symm)]
      simp [hji]
  rw [count_ones64, count_ones64, hfil, Finset.card_erase_of_mem hmem,
    Nat.sub_add_cancel (Finset.card_pos.mpr ⟨_, hmem⟩)]

theorem count_ones64_add_zeros (w : Nat) : count_ones64 w + count_zeros64 w = 64 := by
  rw [count_ones64, count_zeros64]
  have hcongr : (Finset.range 64).filter (fun i => w.testBit i = false) =
      (Finset.range 64).filter (fun i => ¬ (w.testBit i = true)) := by
    apply Finset.filter_congr
    intro x _
    cases w.testBit x <;> simp
  rw [hcongr, Finset.filter_card_add_filter_neg_card_eq_card, Finset.card_range]

theorem count_ones_add_zeros (arr : List Nat) :
    count_bit_ones arr + count_bit_zeros arr = 64 * arr.length := by
  induction arr with
  | nil => rfl
  | cons w rest ih =>
    rw [count_bit_ones, count_bit_zeros, List.map_cons, List.map_cons,
      List.sum_cons, List.sum_cons, List.length_cons]
    rw [count_bit_ones, count_bit_zeros] at ih
    have := count_ones64_add_zeros w
    omega

/-! ### The yield sequence of the set-bit iterator -/

/-- The iterator state is a faithful image of a `u64` iterator state. -/
def ItWf (it : BitOnesIterator) : Prop :=
  it.current_segment < 2 ^ 64 ∧ Wf it.segment_iter

/-- A lower bound on everything the iterator can still yield. -/
def itLower (it : BitOnesIterator) : Nat :=
  it.first_segment_bit +
    (if it.current_segment = 0 then 64 else trailing_zeros it.current_segment)

theorem count_bit_ones_cons (w : Nat) (l : List Nat) :
    count_bit_ones (w :: l) = count_ones64 w + count_bit_ones l := by
  simp [count_bit_ones]

theorem xor_lowest_lt_64 {cur : Nat} (hc : cur ≠ 0) (hcur : cur < 2 ^ 64) :
    cur ^^^ (1 <<< trailing_zeros cur) < 2 ^ 64 := by
  have htz : trailing_zeros cur < 64 := trailing_zeros_lt_64 hc hcur
  have hs : (1 <<< trailing_zeros cur) = 2 ^ trailing_zeros cur := Nat.one_shiftLeft _
  have h3 : (2 : Nat) ^ trailing_zeros cur ≤ 2 ^ 63 :=
    Nat.pow_le_pow_right (by omega) (by omega)
  exact Nat.bitwise_lt hcur (by rw [hs]; omega)

theorem next_aux_dec : ∀ (rest : List Nat) (fsb cur x : Nat) (it2 : BitOnesIterator),
    next_aux fsb cur rest = some (x, it2) →
    it2.segment_iter.length < rest.length ∨
      (it2.segment_iter.length = rest.length ∧ it2.current_segment < cur) := by
  intro rest
  induction rest with
  | nil =>
    intro fsb cur x it2 h
    rw [next_aux] at h
    by_cases hc : cur = 0
    · simp [hc] at h
    · simp only [hc, if_false] at h
      cases h
      right
      exact ⟨rfl, xor_lowest_lt hc⟩
  | cons w rest2 ih =>
    intro fsb cur x it2 h
    rw [next_aux] at h
    by_cases hc : cur = 0
    · simp only [hc, if_true] at h
      rcases ih (fsb + 64) w x it2 h with h1 | h1
      · left; simp; omega
      · left; simp; omega
    · simp only [hc, if_false] at h
      cases h
      right
      exact ⟨rfl, xor_lowest_lt hc⟩

/-- The full sequence of indices yielded by repeatedly calling `next`. -/
def itList (it : BitOnesIterator) : List Nat :=
  match h : it.next with
  | none => []
  | some (x, it2) => x :: itList it2
termination_by (it.segment_iter.length, it.current_segment)
decreasing_by
  rcases next_aux_dec it.segment_iter it.first_segment_bit it.current_segment x it2 h
    with h1 | h1
  · exact Prod.Lex.left _ _ h1
  · exact h1.1 ▸ Prod.Lex.right _ h1.2

theorem itList_none {it : BitOnesIterator} (h : it.next = none) : itList it = [] := by
  rw [itList, h]

theorem itList_some {it : BitOnesIterator} {x : Nat} {it2 : BitOnesIterator}
    (h : it.next = some (x, it2)) : itList it = x :: itList it2 := by
  rw [itList, h]

/-- Specification of one successful `next` step: well-formedness is preserved,
the reported remaining length drops by one, and the yield lies between the
state's lower bound and the successor state's lower bound. -/
theorem next_aux_some_spec : ∀ (rest : List Nat) (fsb cur x : Nat)
    (it2 : BitOnesIterator),
    next_aux fsb cur rest = some (x, it2) → cur < 2 ^ 64 → Wf rest →
    ItWf it2 ∧
    it2.len + 1 = count_ones64 cur + count_bit_ones rest ∧
    fsb + (if cur = 0 then 64 else trailing_zeros cur) ≤ x ∧
    x < itLower it2 := by
  intro rest
  induction rest with
  | nil =>
    intro fsb cur x it2 h hcur hwf
    rw [next_aux] at h
    by_cases hc : cur = 0
    · simp [hc] at h
    · simp only [hc, if_false] at h
      cases h
      have htz : trailing_zeros cur < 64 := trailing_zeros_lt_64 hc hcur
      refine ⟨⟨xor_lowest_lt_64 hc hcur, hwf⟩, ?_, ?_, ?_⟩
      · show count_ones64 (cur ^^^ (1 <<< trailing_zeros cur)) + count_bit_ones [] + 1 =
          count_ones64 cur + count_bit_ones []
        have := count_ones64_xor_lowest hc hcur
        omega
      · simp [hc]
      · show fsb + trailing_zeros cur < itLower _
        rw [itLower]
        by_cases hz : cur ^^^ (1 <<< trailing_zeros cur) = 0
        · simp only [hz, if_true]
          omega
        · simp only [hz, if_false]
          have := trailing_zeros_xor_gt hc hz
          omega
  | cons w rest2 ih =>
    intro fsb cur x it2 h hcur hwf
    rw [next_aux] at h
    by_cases hc : cur = 0
    · simp only [hc, if_true] at h
      have hw64 : w < 2 ^ 64 := hwf w (List.mem_cons_self w rest2)
      have hwf2 : Wf rest2 := fun y hy => hwf y (List.mem_cons_of_mem _ hy)
      rcases ih (fsb + 64) w x it2 h hw64 hwf2 with ⟨h1, h2, h3, h4⟩
      refine ⟨h1, ?_, ?_, h4⟩
      · rw [count_bit_ones_cons]
        rw [hc, count_ones64_zero]
        omega
      · simp only [hc, if_true]
        split at h3 <;> omega
    · simp only [hc, if_false] at h
      cases h
      have htz : trailing_zeros cur < 64 := trailing_zeros_lt_64 hc hcur
      refine ⟨⟨xor_lowest_lt_64 hc hcur, hwf⟩, ?_, ?_, ?_⟩
      · show count_ones64 (cur ^^^ (1 <<< trailing_zeros cur)) +
            count_bit_ones (w :: rest2) + 1 =
          count_ones64 cur + count_bit_ones (w :: rest2)
        have := count_ones64_xor_lowest hc hcur
        omega
      · simp [hc]
      · show fsb + trailing_zeros cur < itLower _
        rw [itLower]
        by_cases hz : cur ^^^ (1 <<< trailing_zeros cur) = 0
        · simp only [hz, if_true]
          omega
        · simp only [hz, if_false]
          have := trailing_zeros_xor_gt hc hz
          omega

/-- Specification of an exhausted `next`: nothing remains. -/
theorem next_aux_none_spec : ∀ (rest : List Nat) (fsb cur : Nat),
    next_aux fsb cur rest = none → count_ones64 cur + count_bit_ones rest = 0 := by
  intro rest
  induction rest with
  | nil =>
    intro fsb cur h
    rw [next_aux] at h
    by_cases hc : cur = 0
    · rw [hc, count_ones64_zero]
      rfl
    · simp [hc] at h
  | cons w rest2 ih =>
    intro fsb cur h
    rw [next_aux] at h
    by_cases hc : cur = 0
    · simp only [hc, if_true] at h
      have := ih (fsb + 64) w h
      rw [hc, count_ones64_zero, count_bit_ones_cons]
      omega
    · simp [hc] at h

/-- Master lemma for the yield sequence: its length is the iterator's reported
`len`, it is strictly increasing, and bounded below by `itLower`. -/
theorem itList_spec (N : Nat) : ∀ it : BitOnesIterator, ItWf it →
    it.segment_iter.length * 2 ^ 64 + it.current_segment ≤ N →
    (itList it).length = it.len ∧
    List.Chain' (· < ·) (itList it) ∧
    (∀ y ∈ itList it, itLower it ≤ y) := by
  induction N using Nat.strong_induction_on with
  | _ N ihN =>
    intro it hwf hN
    cases hnext : it.next with
    | none =>
      rw [itList_none hnext]
      have h0 := next_aux_none_spec it.segment_iter it.first_segment_bit
        it.current_segment hnext
      refine ⟨?_, List.chain'_nil, ?_⟩
      · simp only [BitOnesIterator.len, List.length_nil]
        omega
      · intro y hy
        exact absurd hy (List.not_mem_nil y)
    | some p =>
      obtain ⟨x, it2⟩ := p
      rcases next_aux_some_spec it.segment_iter it.first_segment_bit
        it.current_segment x it2 hnext hwf.1 hwf.2 with ⟨hwf2, hlen, hlb, hub⟩
      have hdec := next_aux_dec it.segment_iter it.first_segment_bit
        it.current_segment x it2 hnext
      have hM2 : it2.segment_iter.length * 2 ^ 64 + it2.current_segment <
          it.segment_iter.length * 2 ^ 64 + it.current_segment := by
        rcases hdec with h1 | h1
        · have h2 := hwf2.1
          nlinarith
        · omega
      rcases ihN (it2.segment_iter.length * 2 ^ 64 + it2.current_segment)
        (by omega) it2 hwf2 (le_refl _) with ⟨ih1, ih2, ih3⟩
      rw [itList_some hnext]
      refine ⟨?_, ?_, ?_⟩
      · rw [List.length_cons, ih1]
        simp only [BitOnesIterator.len] at hlen ⊢
        omega
      · rw [List.chain'_cons']
        refine ⟨?_, ih2⟩
        intro y hy
        have hy2 : y ∈ itList it2 := List.mem_of_mem_head? hy
        have := ih3 y hy2
        omega
      · intro y hy
        rcases List.mem_cons.mp hy with rfl | hy2
        · rw [itLower]
          exact hlb
        · have h5 := ih3 y hy2
          rw [itLower]
          rcases Nat.lt_or_ge y (itLower it2) with h6 | h6
          · omega
          · omega

theorem itwf_new {arr : List Nat} (hw : Wf arr) : ItWf (BitOnesIterator.new arr) := by
  match arr with
  | [] => exact ⟨by positivity, fun y hy => absurd hy (List.not_mem_nil y)⟩
  | w :: rest =>
    exact ⟨hw w (List.mem_cons_self w rest), fun y hy => hw y (List.mem_cons_of_mem _ hy)⟩

theorem len_new (arr : List Nat) : (BitOnesIterator.new arr).len = count_bit_ones arr := by
  match arr with
  | [] =>
    show count_ones64 0 + count_bit_ones [] = count_bit_ones []
    rw [count_ones64_zero, Nat.zero_add]
  | w :: rest =>
    show count_ones64 w + count_bit_ones rest = count_bit_ones (w :: rest)
    rw [count_bit_ones_cons]

/-! ### Claim C8 -/

/-- C8: for every word array, `count_bit_ones` equals the number of items the
set-bit iterator yields, the yield sequence is strictly increasing, and
`count_bit_ones + count_bit_zeros = 64 * word_count`. -/
theorem C8_count_iterate_agreement {arr : List Nat} (hw : Wf arr) :
    count_bit_ones arr = (itList (BitOnesIterator.new arr)).length ∧
    List.Pairwise (· < ·) (itList (BitOnesIterator.new arr)) ∧
    count_bit_ones arr + count_bit_zeros arr = 64 * arr.length := by
  rcases itList_spec ((BitOnesIterator.new arr).segment_iter.length * 2 ^ 64 +
      (BitOnesIterator.new arr).current_segment) (BitOnesIterator.new arr)
      (itwf_new hw) (le_refl _)
    with ⟨h1, h2, h3⟩
  refine ⟨?_, List.chain'_iff_pairwise.mp h2, count_ones_add_zeros arr⟩
  rw [h1, len_new]

/-- Witness for C8 on the two-word array `[0b101, 0b10]`. -/
theorem C8_count_iterate_agreement_witness :
    Wf [5, 2] ∧
      (count_bit_ones [5, 2] = (itList (BitOnesIterator.new [5, 2])).length ∧
       List.Pairwise (· < ·) (itList (BitOnesIterator.new [5, 2])) ∧
       count_bit_ones [5, 2] + count_bit_zeros [5, 2] = 64 * [5, 2].length) :=
  ⟨by decide, C8_count_iterate_agreement (by decide)⟩

/-! ### Claim C9 -/

/-- C9: over `[0b101, 0b10]` the iterator yields 0, 2, 65 in order; `len`
reports 3, 2, 1 before each successive `next` and 0 after exhaustion; `next`
on the exhausted state keeps returning `none` (the state is unchanged by an
exhausted call, so every later call also returns `none`). -/
theorem C9_iterator_scenario :
    (BitOnesIterator.new [5, 2]).len = 3 ∧
    (BitOnesIterator.new [5, 2]).next = some (0, ⟨[2], 0, 4⟩) ∧
    BitOnesIterator.len ⟨[2], 0, 4⟩ = 2 ∧
    BitOnesIterator.next ⟨[2], 0, 4⟩ = some (2, ⟨[2], 0, 0⟩) ∧
    BitOnesIterator.len ⟨[2], 0, 0⟩ = 1 ∧
    BitOnesIterator.next ⟨[2], 0, 0⟩ = some (64 + 1, ⟨[], 64, 0⟩) ∧
    BitOnesIterator.len ⟨[], 64, 0⟩ = 0 ∧
    BitOnesIterator.next ⟨[], 64, 0⟩ = none := by
  have t5 : trailing_zeros 5 = 0 := by
    rw [trailing_zeros]
    norm_num
  have t4 : trailing_zeros 4 = 2 := by
    rw [trailing_zeros]
    norm_num
    rw [trailing_zeros]
    norm_num
    rw [trailing_zeros]
    norm_num
  have t2 : trailing_zeros 2 = 1 := by
    rw [trailing_zeros]
    norm_num
    rw [trailing_zeros]
    norm_num
  refine ⟨by decide, ?_, by decide, ?_, by decide, ?_, by decide, ?_⟩
  · show next_aux 0 5 [2] = some (0, ⟨[2], 0, 4⟩)
    rw [next_aux, t5]
    decide
  · show next_aux 0 4 [2] = some (2, ⟨[2], 0, 0⟩)
    rw [next_aux, t4]
    decide
  · show next_aux 0 0 [2] = some (64 + 1, ⟨[], 64, 0⟩)
    rw [next_aux]
    norm_num
    rw [next_aux, t2]
    decide
  · show next_aux 64 0 [] = none
    rw [next_aux]
    norm_num

end Bitm
